import Mathlib

set_option maxRecDepth 100000

-- Verification of the duragloss SDS crawler (src/main.go): a shallow
-- embedding of its string processing, URL handling, downloader and
-- per-link pipeline loop, with external I/O represented by explicit
-- outcome oracles.

namespace Duragloss

/-- Go strings are modelled as lists of characters (the inputs of this
program are ASCII). -/
def str (s : String) : List Char := s.data

/-- The character class `[a-z0-9._-]` of the sanitizer's regular
expression in urlToSafeFilename, by code point. -/
def isSafeChar (c : Char) : Bool :=
  decide ((97 ≤ c.toNat ∧ c.toNat ≤ 122) ∨ (48 ≤ c.toNat ∧ c.toNat ≤ 57)
    ∨ c.toNat = 46 ∨ c.toNat = 95 ∨ c.toNat = 45)

/-- strings.ToLower on one character (ASCII fragment; the class comparison
that consumes the result treats every non-ASCII character as unsafe either
way). -/
def goToLowerChar (c : Char) : Char :=
  if 65 ≤ c.toNat ∧ c.toNat ≤ 90 then Char.ofNat (c.toNat + 32) else c

/-- strings.ToLower. -/
def goToLower (s : List Char) : List Char := s.map goToLowerChar

/-- regexp.ReplaceAllString with pattern `[^a-z0-9._-]+` and replacement
"_": each maximal run of characters outside the class becomes one
underscore. The Boolean flag records whether the previous character was
part of such a run. -/
def replaceRunsAux : Bool → List Char → List Char
  | _, [] => []
  | inRun, c :: rest =>
    if isSafeChar c then c :: replaceRunsAux false rest
    else if inRun then replaceRunsAux true rest
    else '_' :: replaceRunsAux true rest

def replaceRuns (s : List Char) : List Char := replaceRunsAux false s

/-- Go path.Base: "." for the empty path, strip trailing slashes, keep
what follows the last slash, "/" when only slashes remain. -/
def pathBase (p : List Char) : List Char :=
  if p.isEmpty then ['.']
  else
    let q := (p.reverse.dropWhile (fun c => c == '/')).reverse
    let r := (q.reverse.takeWhile (fun c => c != '/')).reverse
    if r.isEmpty then ['/'] else r

/-- Value of a hexadecimal digit, as in net/url. -/
def hexVal (c : Char) : Option Nat :=
  if 48 ≤ c.toNat ∧ c.toNat ≤ 57 then some (c.toNat - 48)
  else if 97 ≤ c.toNat ∧ c.toNat ≤ 102 then some (c.toNat - 87)
  else if 65 ≤ c.toNat ∧ c.toNat ≤ 70 then some (c.toNat - 55)
  else none

/-- net/url percent-decoding (character-level model of the byte-level
original): `%XX` decodes by hex value, an ill-formed escape is an error,
and `+` becomes a space only in query mode. -/
def goUnescape (plus : Bool) : List Char → Option (List Char)
  | [] => some []
  | c :: rest =>
    if c = '%' then
      match rest with
      | a :: b :: rest2 =>
        match hexVal a, hexVal b with
        | some h1, some h2 =>
          (goUnescape plus rest2).map (fun t => Char.ofNat (16 * h1 + h2) :: t)
        | _, _ => none
      | _ => none
    else if c = '+' then
      (goUnescape plus rest).map (fun t => (if plus then ' ' else '+') :: t)
    else (goUnescape plus rest).map (fun t => c :: t)

/-- net/url QueryUnescape. -/
def queryUnescape (s : List Char) : Option (List Char) := goUnescape true s

/-- The path decoding performed inside net/url Parse (no plus
conversion). -/
def unescapePath (s : List Char) : Option (List Char) := goUnescape false s

/-- Control characters are rejected by net/url Parse. -/
def isCtlChar (c : Char) : Bool := decide (c.toNat < 32 ∨ c.toNat = 127)

def isAlphaChar (c : Char) : Bool :=
  decide ((65 ≤ c.toNat ∧ c.toNat ≤ 90) ∨ (97 ≤ c.toNat ∧ c.toNat ≤ 122))

def isDigitChar (c : Char) : Bool := decide (48 ≤ c.toNat ∧ c.toNat ≤ 57)

/-- Characters allowed after the first letter of a URL scheme. -/
def isSchemeTailChar (c : Char) : Bool :=
  isAlphaChar c || isDigitChar c || c == '+' || c == '-' || c == '.'

/-- Scan for "scheme:" as net/url getScheme does: a colon terminating a
run of scheme characters yields the scheme and the remainder; any other
character before a colon means the input has no scheme. -/
def findScheme (acc : List Char) : List Char → Option (List Char × List Char)
  | [] => none
  | c :: rest =>
    if c = ':' then some (acc.reverse, rest)
    else if isSchemeTailChar c then findScheme (c :: acc) rest
    else none

/-- net/url getScheme: a scheme must start with a letter; a leading colon
is an error; otherwise the absence of a well-formed "scheme:" leaves the
input intact. -/
def schemeSplit : List Char → Option (Option (List Char) × List Char)
  | [] => some (none, [])
  | c :: rest =>
    if c = ':' then none
    else if isAlphaChar c then
      match findScheme [c] rest with
      | some (sch, r) => some (some sch, r)
      | none => some (none, c :: rest)
    else some (none, c :: rest)

/-- The components of a parsed URL that this program reads: scheme, host
of the authority, and the decoded path. -/
structure GoURL where
  scheme : Option (List Char)
  host : Option (List Char)
  path : List Char
deriving DecidableEq

/-- The host is what follows the last "@" of the authority. -/
def stripUserinfo (authority : List Char) : List Char :=
  (authority.reverse.takeWhile (fun c => c != '@')).reverse

/-- Model of net/url parse(rawURL, viaRequest) restricted to the
components in GoURL; host syntax validation is not modelled. -/
def goParse (raw : List Char) (viaRequest : Bool) : Option GoURL :=
  if raw.any isCtlChar then none
  else if viaRequest && raw.isEmpty then none
  else if raw = ['*'] then some ⟨none, none, ['*']⟩
  else
    match schemeSplit raw with
    | none => none
    | some (scheme, rest0) =>
      let rest := rest0.takeWhile (fun c => c != '?')
      if ¬ (['/'].isPrefixOf rest) ∧ scheme.isSome then
        some ⟨scheme, none, []⟩
      else if ¬ (['/'].isPrefixOf rest) ∧ viaRequest then none
      else if ¬ (['/'].isPrefixOf rest)
          ∧ (rest.takeWhile (fun c => c != '/')).contains ':' then none
      else if (scheme.isSome ∨ (¬ viaRequest ∧ ¬ (['/', '/', '/'].isPrefixOf rest)))
          ∧ ['/', '/'].isPrefixOf rest then
        let afterSlashes := rest.drop 2
        let authority := afterSlashes.takeWhile (fun c => c != '/')
        let rest2 := afterSlashes.dropWhile (fun c => c != '/')
        match unescapePath rest2 with
        | none => none
        | some p => some ⟨scheme, some (stripUserinfo authority), p⟩
      else
        match unescapePath rest with
        | none => none
        | some p => some ⟨scheme, none, p⟩

/-- net/url Parse: the fragment after "#" is split off (and discarded
here; fragment escapes are not modelled). -/
def urlParse (raw : List Char) : Option GoURL :=
  goParse (raw.takeWhile (fun c => c != '#')) false

/-- URL.Hostname, without IPv6 bracket handling: the host up to the port
colon. -/
def hostname (u : GoURL) : List Char :=
  (u.host.getD []).takeWhile (fun c => c != ':')

/-- extractDomainURL from main.go: the hostname of the parsed URL, or ""
when parsing fails. -/
def extractDomainURL (inputUrl : List Char) : List Char :=
  match urlParse inputUrl with
  | none => []
  | some u => hostname u

/-- isUrlValid from main.go: url.ParseRequestURI succeeds. -/
def isUrlValid (uri : List Char) : Bool := (goParse uri true).isSome

/-- urlToSafeFilename from main.go: parse, take the base of the path,
query-unescape it (falling back to the raw base on failure), lowercase,
and replace runs of unsafe characters. -/
def urlToSafeFilename (rawURL : List Char) : List Char :=
  match urlParse rawURL with
  | none => []
  | some u =>
    let base := pathBase u.path
    let decoded := (queryUnescape base).getD base
    replaceRuns (goToLower decoded)

/-- strings.Contains. -/
def strContains : List Char → List Char → Bool
  | [], needle => needle.isEmpty
  | c :: t, needle => needle.isPrefixOf (c :: t) || strContains t needle

/-- strings.HasSuffix. -/
def hasSuffix (s suffix : List Char) : Bool :=
  suffix.reverse.isPrefixOf s.reverse

/-- An anchor element as delivered by the HTML parsing library (goquery,
the external parser boundary): its optional href attribute. A parsed
document is its list of anchors in document order. -/
structure Anchor where
  href : Option (List Char)
deriving DecidableEq

def dotPdf : List Char := str ".pdf"

/-- extractPDFLinks from main.go over the parsed anchors: Each visits the
anchors in document order and appends every present href that ends,
case-insensitively, in ".pdf". -/
def extractPDFLinks (anchors : List Anchor) : List (List Char) :=
  anchors.foldl
    (fun acc a =>
      match a.href with
      | some h => if hasSuffix (goToLower h) dotPdf then acc ++ [h] else acc
      | none => acc) []

/-- Helper of removeDuplicatesFromSlice: the Go map `check` is the set of
strings seen so far. -/
def rdAux (seen : List (List Char)) : List (List Char) → List (List Char)
  | [] => []
  | x :: xs => if x ∈ seen then rdAux seen xs else x :: rdAux (x :: seen) xs

/-- removeDuplicatesFromSlice from main.go. -/
def removeDuplicatesFromSlice (slice : List (List Char)) : List (List Char) :=
  rdAux [] slice

/-- An HTTP response as the downloader reads it: status code, declared
content type, and body bytes. -/
structure HttpResponse where
  status : Nat
  contentType : List Char
  body : List Char
deriving DecidableEq

/-- Result of client.Get: a transport failure or a response. -/
inductive HttpResult where
  | failure : HttpResult
  | success : HttpResponse → HttpResult
deriving DecidableEq

/-- Outcome oracle for the external effects of one download: the result
of the HTTP GET and whether each file-system step (io.Copy, os.Create,
WriteTo) succeeds. -/
structure DLEnv where
  http : HttpResult
  copyOk : Bool
  createOk : Bool
  writeOk : Bool
deriving DecidableEq

/-- The file system as path-to-content bindings; the most recent binding
wins. -/
abbrev FS := List (List Char × List Char)

/-- fileExists from main.go restricted to the modelled file map
(directories are not files, so they are simply absent from the map). -/
def fileExists (p : List Char) (fs : FS) : Bool := fs.any (fun e => e.1 == p)

/-- filepath.Join(dir, name) for the names this program produces: Clean
maps an empty, "." or ".." final element back onto the directory itself
or its parent; other sanitized names contain no separators. -/
def filepathJoin (dir name : List Char) : List Char :=
  if name.isEmpty ∨ name = ['.'] then dir
  else if name = ['.', '.'] then ['.']
  else dir ++ '/' :: name

def appPdf : List Char := str "application/pdf"

/-- The path downloadPDF writes to: the output directory joined with the
lowercased sanitized filename. -/
def targetPath (finalURL outputDir : List Char) : List Char :=
  filepathJoin outputDir (goToLower (urlToSafeFilename finalURL))

/-- downloadPDF from main.go. Returns the updated file system and whether
an HTTP GET was issued. The checks run in source order: pre-existing
file, GET failure, non-200 status, content type, io.Copy failure, empty
body, os.Create failure; a WriteTo failure after a successful os.Create
leaves the created file behind, modelled with empty content. -/
def downloadPDF (env : DLEnv) (finalURL outputDir : List Char) (fs : FS) :
    FS × Bool :=
  let filePath := targetPath finalURL outputDir
  if fileExists filePath fs then (fs, false)
  else
    match env.http with
    | .failure => (fs, true)
    | .success r =>
      if ¬ (r.status = 200) then (fs, true)
      else if ¬ strContains r.contentType appPdf then (fs, true)
      else if ¬ env.copyOk then (fs, true)
      else if r.body.isEmpty then (fs, true)
      else if ¬ env.createOk then (fs, true)
      else if env.writeOk then ((filePath, r.body) :: fs, true)
      else ((filePath, []) :: fs, true)

def baseURL : List Char := str "https://www.duragloss.com"

def outputDirName : List Char := str "PDFs"

/-- State threaded through main's loop: the file system and the contents
of the ledger file pdf_links.txt. -/
structure LoopState where
  fs : FS
  ledger : List Char
deriving DecidableEq

/-- One iteration of main's per-link loop: prepend the base URL when the
link has no domain, call downloadPDF, then consult the ledger snapshot
that was read before the loop, and append the link to the ledger file
when it is new and syntactically valid. Returns the new state and the
event (normalized link, whether an HTTP GET was issued). -/
def processLink (readLocalFile : List Char) (envs : List Char → DLEnv)
    (outputDir : List Char) (st : LoopState) (link0 : List Char) :
    LoopState × (List Char × Bool) :=
  let link := if (extractDomainURL link0).isEmpty then baseURL ++ link0 else link0
  let res := downloadPDF (envs link) link outputDir st.fs
  let ledger2 :=
    if strContains readLocalFile link then st.ledger
    else if isUrlValid link then st.ledger ++ link ++ ['\n']
    else st.ledger
  (⟨res.1, ledger2⟩, (link, res.2))

/-- main's per-link loop; readLocalFile is the ledger contents read once
before the loop and never refreshed during it. -/
def runLinks (readLocalFile : List Char) (envs : List Char → DLEnv)
    (outputDir : List Char) (st : LoopState) :
    List (List Char) → LoopState × List (List Char × Bool)
  | [] => (st, [])
  | l :: ls =>
    let step := processLink readLocalFile envs outputDir st l
    let rest := runLinks readLocalFile envs outputDir step.1 ls
    (rest.1, step.2 :: rest.2)

/-- The checks downloadPDF passes before reaching the final write:
successful GET, status 200, content type containing application/pdf,
body read without error, non-empty body, successful os.Create. -/
def preChecks (env : DLEnv) : Bool :=
  match env.http with
  | .failure => false
  | .success r =>
    (r.status == 200) && strContains r.contentType appPdf && env.copyOk
      && !r.body.isEmpty && env.createOk

/-- The final path segment of a decoded URL path: what follows the last
"/". -/
def finalPathSegment (p : List Char) : List Char :=
  (p.reverse.takeWhile (fun c => c != '/')).reverse

/-- An absolute sample link on the crawled site. -/
def l0 : List Char := str "https://www.duragloss.com/a.pdf"

/-- A download environment whose GET yields HTTP 404. -/
def env404 : DLEnv := ⟨.success ⟨404, str "text/html", []⟩, true, true, true⟩

/-- A download environment passing every check except the final
WriteTo. -/
def envBadWrite : DLEnv := ⟨.success ⟨200, appPdf, str "x"⟩, true, true, false⟩

/-- A download environment whose GET succeeds with an HTML content type
instead of a PDF one. -/
def envHtml : DLEnv := ⟨.success ⟨200, str "text/html", str "<html>"⟩, true, true, true⟩

/-- Index of the first occurrence of a value in a list (list length when
absent): the order of first appearance used to state the dedup
contract. -/
def firstIdx (a : List Char) : List (List Char) → Nat
  | [] => 0
  | x :: xs => if x = a then 0 else firstIdx a xs + 1

theorem takeWhile_all {α : Type} {p : α → Bool} :
    ∀ l : List α, (∀ a ∈ l, p a = true) → l.takeWhile p = l := by
  intro l h
  induction l with
  | nil => rfl
  | cons x xs ih =>
    rw [List.takeWhile_cons_of_pos (h x (List.mem_cons_self x xs)),
      ih (fun a ha => h a (List.mem_cons_of_mem x ha))]

theorem dropWhile_all {α : Type} {p : α → Bool} :
    ∀ l : List α, (∀ a ∈ l, p a = false) → l.dropWhile p = l := by
  intro l h
  cases l with
  | nil => rfl
  | cons x xs =>
    rw [List.dropWhile_cons_of_neg]
    simp [h x (List.mem_cons_self x xs)]

theorem contains_false_of (l : List Char) (d : Char)
    (h : ∀ c ∈ l, ¬ c = d) : l.contains d = false := by
  induction l with
  | nil => rfl
  | cons x xs ih =>
    have hx : ¬ d = x := fun he => h x (List.mem_cons_self x xs) he.symm
    have hbeq : (d == x) = false := beq_eq_false_iff_ne.mpr hx
    simp only [List.contains, List.elem_cons, hbeq]
    exact ih (fun c hc => h c (List.mem_cons_of_mem x hc))

theorem isSafeChar_toNat {c : Char} (h : isSafeChar c = true) :
    (97 ≤ c.toNat ∧ c.toNat ≤ 122) ∨ (48 ≤ c.toNat ∧ c.toNat ≤ 57)
      ∨ c.toNat = 46 ∨ c.toNat = 95 ∨ c.toNat = 45 := by
  simpa [isSafeChar] using h

theorem safe_ne (c : Char) (h : isSafeChar c = true) :
    c ≠ '/' ∧ c ≠ '%' ∧ c ≠ '+' ∧ c ≠ '#' ∧ c ≠ '?' ∧ c ≠ ':' ∧ c ≠ '*' := by
  refine ⟨?_, ?_, ?_, ?_, ?_, ?_, ?_⟩ <;>
    (intro he; subst he; exact absurd h (by decide))

theorem safe_not_ctl (c : Char) (h : isSafeChar c = true) :
    isCtlChar c = false := by
  have hn := isSafeChar_toNat h
  apply decide_eq_false
  intro hc
  rcases hn with ⟨a, b⟩ | ⟨a, b⟩ | a | a | a <;> rcases hc with hc | hc <;> omega

theorem mem_replaceRunsAux {c : Char} :
    ∀ (s : List Char) (b : Bool), c ∈ replaceRunsAux b s → isSafeChar c = true := by
  intro s
  induction s with
  | nil => intro b h; cases h
  | cons x xs ih =>
    intro b h
    rw [replaceRunsAux] at h
    by_cases hx : isSafeChar x = true
    · rw [if_pos hx] at h
      rcases List.mem_cons.mp h with he | h2
      · rw [he]; exact hx
      · exact ih false h2
    · rw [if_neg hx] at h
      cases b with
      | true =>
        simp only [if_pos] at h
        exact ih true h
      | false =>
        simp only [Bool.false_eq_true, if_false] at h
        rcases List.mem_cons.mp h with he | h2
        · rw [he]; decide
        · exact ih true h2

theorem replaceRunsAux_all_safe :
    ∀ s : List Char, (∀ c ∈ s, isSafeChar c = true) → replaceRunsAux false s = s := by
  intro s
  induction s with
  | nil => intro _; rfl
  | cons x xs ih =>
    intro h
    rw [replaceRunsAux, if_pos (h x (List.mem_cons_self x xs)),
      ih (fun c hc => h c (List.mem_cons_of_mem x hc))]

theorem replaceRunsAux_ne_nil (s : List Char) (h : s ≠ []) :
    replaceRunsAux false s ≠ [] := by
  cases s with
  | nil => exact absurd rfl h
  | cons x xs =>
    rw [replaceRunsAux]
    by_cases hx : isSafeChar x = true
    · rw [if_pos hx]; exact List.cons_ne_nil _ _
    · rw [if_neg hx]
      simp only [Bool.false_eq_true, if_false]
      exact List.cons_ne_nil _ _

theorem goToLowerChar_safe (c : Char) (h : isSafeChar c = true) :
    goToLowerChar c = c := by
  have hn := isSafeChar_toNat h
  unfold goToLowerChar
  rw [if_neg]
  rintro ⟨h1, h2⟩
  rcases hn with ⟨a, b⟩ | ⟨a, b⟩ | a | a | a <;> omega

theorem goToLower_safe :
    ∀ s : List Char, (∀ c ∈ s, isSafeChar c = true) → goToLower s = s := by
  intro s
  induction s with
  | nil => intro _; rfl
  | cons x xs ih =>
    intro h
    have h2 := ih (fun c hc => h c (List.mem_cons_of_mem x hc))
    simp only [goToLower, List.map_cons] at h2 ⊢
    rw [goToLowerChar_safe x (h x (List.mem_cons_self x xs)), h2]

theorem goUnescape_no_escape (plus : Bool) :
    ∀ s : List Char, (∀ c ∈ s, ¬ c = '%' ∧ ¬ c = '+') →
      goUnescape plus s = some s := by
  intro s
  induction s with
  | nil => intro _; rfl
  | cons x xs ih =>
    intro h
    obtain ⟨h1, h2⟩ := h x (List.mem_cons_self x xs)
    rw [goUnescape.eq_def]
    dsimp only
    rw [if_neg h1, if_neg h2,
      ih (fun c hc => h c (List.mem_cons_of_mem x hc))]
    rfl

theorem goUnescape_ne_nil (plus : Bool) (s t : List Char)
    (hs : s ≠ []) (h : goUnescape plus s = some t) : t ≠ [] := by
  cases s with
  | nil => exact absurd rfl hs
  | cons x xs =>
    rw [goUnescape.eq_def] at h
    dsimp only at h
    by_cases h1 : x = '%'
    · rw [if_pos h1] at h
      cases xs with
      | nil => cases h
      | cons a rest =>
        cases rest with
        | nil => cases h
        | cons b rest2 =>
          dsimp only at h
          cases ha : hexVal a with
          | none => rw [ha] at h; cases h
          | some v1 =>
            cases hb : hexVal b with
            | none => rw [ha, hb] at h; cases h
            | some v2 =>
              rw [ha, hb] at h
              cases hg : goUnescape plus rest2 with
              | none => rw [hg] at h; cases h
              | some t2 =>
                rw [hg] at h
                cases h
                exact List.cons_ne_nil _ _
    · rw [if_neg h1] at h
      by_cases h2 : x = '+'
      · rw [if_pos h2] at h
        cases hg : goUnescape plus xs with
        | none => rw [hg] at h; cases h
        | some t2 =>
          rw [hg] at h
          cases h
          exact List.cons_ne_nil _ _
      · rw [if_neg h2] at h
        cases hg : goUnescape plus xs with
        | none => rw [hg] at h; cases h
        | some t2 =>
          rw [hg] at h
          cases h
          exact List.cons_ne_nil _ _

theorem pathBase_ne_nil (p : List Char) : pathBase p ≠ [] := by
  unfold pathBase
  split
  · exact List.cons_ne_nil _ _
  · dsimp only
    split
    · exact List.cons_ne_nil _ _
    · next h =>
      intro he
      exact h (by rw [he]; rfl)

theorem pathBase_no_slash (s : List Char) (hne : s ≠ [])
    (h : ∀ c ∈ s, ¬ c = '/') : pathBase s = s := by
  have hd : s.reverse.dropWhile (fun c => c == '/') = s.reverse :=
    dropWhile_all _ (fun a ha =>
      beq_eq_false_iff_ne.mpr (h a (List.mem_reverse.mp ha)))
  have ht : s.reverse.takeWhile (fun c => c != '/') = s.reverse :=
    takeWhile_all _ (fun a ha =>
      bne_iff_ne.mpr (h a (List.mem_reverse.mp ha)))
  unfold pathBase
  rw [if_neg (by simpa using hne)]
  simp only [hd, List.reverse_reverse, ht]
  rw [if_neg (by simpa using hne)]

theorem findScheme_no_colon :
    ∀ (l acc : List Char), (∀ c ∈ l, ¬ c = ':') → findScheme acc l = none := by
  intro l
  induction l with
  | nil => intro acc _; rfl
  | cons x xs ih =>
    intro acc h
    rw [findScheme, if_neg (h x (List.mem_cons_self x xs))]
    by_cases hx : isSchemeTailChar x = true
    · rw [if_pos hx]
      exact ih _ (fun c hc => h c (List.mem_cons_of_mem x hc))
    · rw [if_neg hx]

theorem schemeSplit_safe (s : List Char)
    (h : ∀ c ∈ s, isSafeChar c = true) : schemeSplit s = some (none, s) := by
  cases s with
  | nil => rfl
  | cons c rest =>
    have hc := safe_ne c (h c (List.mem_cons_self c rest))
    rw [schemeSplit, if_neg hc.2.2.2.2.2.1]
    by_cases ha : isAlphaChar c = true
    · rw [if_pos ha, findScheme_no_colon rest [c]
        (fun d hd => (safe_ne d (h d (List.mem_cons_of_mem c hd))).2.2.2.2.2.1)]
    · rw [if_neg ha]

theorem urlParse_safe (s : List Char) (hne : s ≠ [])
    (h : ∀ c ∈ s, isSafeChar c = true) :
    urlParse s = some ⟨none, none, s⟩ := by
  have h1 : s.takeWhile (fun c => c != '#') = s :=
    takeWhile_all _ (fun a ha => bne_iff_ne.mpr (safe_ne a (h a ha)).2.2.2.1)
  have hany : s.any isCtlChar = false :=
    List.any_eq_false.mpr (fun a ha => by simp [safe_not_ctl a (h a ha)])
  have hstar : ¬ s = ['*'] := by
    intro he
    have hm : ('*' : Char) ∈ s := by rw [he]; exact List.mem_cons_self _ _
    exact absurd (h '*' hm) (by decide)
  have hq : s.takeWhile (fun c => c != '?') = s :=
    takeWhile_all _ (fun a ha => bne_iff_ne.mpr (safe_ne a (h a ha)).2.2.2.2.1)
  have hslash : (['/'].isPrefixOf s) = false := by
    cases s with
    | nil => rfl
    | cons c rest =>
      have hb : ('/' == c) = false := beq_eq_false_iff_ne.mpr
        (fun he => (safe_ne c (h c (List.mem_cons_self c rest))).1 he.symm)
      simp [List.isPrefixOf, hb]
  have hdslash : (['/', '/'].isPrefixOf s) = false := by
    cases s with
    | nil => rfl
    | cons c rest =>
      have hb : ('/' == c) = false := beq_eq_false_iff_ne.mpr
        (fun he => (safe_ne c (h c (List.mem_cons_self c rest))).1 he.symm)
      simp [List.isPrefixOf, hb]
  have hsl : s.takeWhile (fun c => c != '/') = s :=
    takeWhile_all _ (fun a ha => bne_iff_ne.mpr (safe_ne a (h a ha)).1)
  have hcont : (s.takeWhile (fun c => c != '/')).contains ':' = false := by
    rw [hsl]
    exact contains_false_of s ':'
      (fun c hc => fun he => (safe_ne c (h c hc)).2.2.2.2.2.1 he)
  have hun : unescapePath s = some s :=
    goUnescape_no_escape false s
      (fun c hc => ⟨(safe_ne c (h c hc)).2.1, (safe_ne c (h c hc)).2.2.1⟩)
  have hmem : (':' : Char) ∉ s :=
    fun hm => (safe_ne ':' (h ':' hm)).2.2.2.2.2.1 rfl
  unfold urlParse
  rw [h1]
  simp [goParse, hany, hstar, schemeSplit_safe s h, hq, hslash, hdslash,
    hcont, hun, hsl, hmem]

theorem urlToSafeFilename_chars (s : List Char) :
    ∀ c ∈ urlToSafeFilename s, isSafeChar c = true := by
  cases hp : urlParse s with
  | none =>
    rw [urlToSafeFilename, hp]
    intro c hc
    cases hc
  | some u =>
    rw [urlToSafeFilename, hp]
    dsimp only
    intro c hc
    exact mem_replaceRunsAux _ false hc

theorem urlToSafeFilename_ne_nil (s : List Char) (u : GoURL)
    (hp : urlParse s = some u) : urlToSafeFilename s ≠ [] := by
  rw [urlToSafeFilename, hp]
  dsimp only
  apply replaceRunsAux_ne_nil
  have hbase : pathBase u.path ≠ [] := pathBase_ne_nil u.path
  cases hqn : queryUnescape (pathBase u.path) with
  | none =>
    simpa [goToLower, hqn] using hbase
  | some t =>
    have hn := goUnescape_ne_nil true _ t hbase hqn
    simpa [goToLower, hqn] using hn

theorem urlToSafeFilename_idem (s : List Char) (u : GoURL)
    (hp : urlParse s = some u) :
    urlToSafeFilename (urlToSafeFilename s) = urlToSafeFilename s := by
  have hchars := urlToSafeFilename_chars s
  have hnn := urlToSafeFilename_ne_nil s u hp
  set t := urlToSafeFilename s with ht
  have hparse : urlParse t = some ⟨none, none, t⟩ := urlParse_safe t hnn hchars
  rw [urlToSafeFilename, hparse]
  dsimp only
  rw [pathBase_no_slash t hnn (fun c hc => (safe_ne c (hchars c hc)).1)]
  rw [show queryUnescape t = some t from goUnescape_no_escape true t
    (fun c hc => ⟨(safe_ne c (hchars c hc)).2.1, (safe_ne c (hchars c hc)).2.2.1⟩)]
  rw [Option.getD_some, goToLower_safe t hchars]
  exact replaceRunsAux_all_safe t hchars

/-- Claim C7: for every URL with a non-empty final path segment,
sanitizing it twice yields the same filename as sanitizing it once, and
every character of the resulting filename is in the class [a-z0-9._-]. -/
theorem sanitize_idempotent_charset (s : List Char) (u : GoURL)
    (hp : urlParse s = some u) (_hseg : finalPathSegment u.path ≠ []) :
    urlToSafeFilename (urlToSafeFilename s) = urlToSafeFilename s ∧
    (urlToSafeFilename s).all isSafeChar = true :=
  ⟨urlToSafeFilename_idem s u hp,
   List.all_eq_true.mpr (fun c hc => urlToSafeFilename_chars s c hc)⟩

/-- Witness for the C7 theorem at a concrete crawled URL. -/
theorem sanitize_idempotent_charset_witness :
    (urlParse (str "https://www.duragloss.com/sds/a.pdf")
        = some ⟨some (str "https"), some (str "www.duragloss.com"),
            str "/sds/a.pdf"⟩ ∧
      finalPathSegment (str "/sds/a.pdf") ≠ []) ∧
    (urlToSafeFilename (urlToSafeFilename (str "https://www.duragloss.com/sds/a.pdf"))
        = urlToSafeFilename (str "https://www.duragloss.com/sds/a.pdf") ∧
      (urlToSafeFilename (str "https://www.duragloss.com/sds/a.pdf")).all
          isSafeChar = true) :=
  ⟨⟨by decide, by decide⟩,
   sanitize_idempotent_charset (str "https://www.duragloss.com/sds/a.pdf")
     ⟨some (str "https"), some (str "www.duragloss.com"), str "/sds/a.pdf"⟩
     (by decide) (by decide)⟩

/-- Counterexample to claim C6 as stated: the site's base URL parses
with an empty path, yet the sanitizer yields ".", not the empty
string. -/
theorem empty_path_filename_nonempty_counterexample :
    urlParse baseURL
      = some ⟨some (str "https"), some (str "www.duragloss.com"), []⟩ ∧
    ¬ urlToSafeFilename baseURL = [] := by decide

/-- Claim C6 (amended): when URL parsing succeeds, an empty path yields
the filename "." and a root-only path yields "_" — non-empty in both
cases (the sanitizer returns the empty string only when parsing
fails). -/
theorem empty_or_root_path_filename (s : List Char) (u : GoURL)
    (hp : urlParse s = some u) :
    (u.path = [] → urlToSafeFilename s = ['.']) ∧
    (u.path = ['/'] → urlToSafeFilename s = ['_']) := by
  constructor <;> intro hpath <;> rw [urlToSafeFilename, hp] <;> dsimp only <;>
    rw [hpath] <;> decide

/-- Witness for the C6 theorem at the site's base URL. -/
theorem empty_or_root_path_filename_witness :
    urlParse baseURL
      = some ⟨some (str "https"), some (str "www.duragloss.com"), []⟩ ∧
    (((⟨some (str "https"), some (str "www.duragloss.com"), []⟩ : GoURL).path = [] →
        urlToSafeFilename baseURL = ['.']) ∧
      ((⟨some (str "https"), some (str "www.duragloss.com"), []⟩ : GoURL).path = ['/'] →
        urlToSafeFilename baseURL = ['_'])) :=
  ⟨by decide, empty_or_root_path_filename baseURL
    ⟨some (str "https"), some (str "www.duragloss.com"), []⟩ (by decide)⟩

/-- Claim C4: when the sanitized target file already exists, downloadPDF
skips the link unconditionally — no HTTP GET is issued and the file
system is returned unchanged. -/
theorem existing_file_skips_download (env : DLEnv) (url dir : List Char)
    (fs : FS) (h : fileExists (targetPath url dir) fs = true) :
    downloadPDF env url dir fs = (fs, false) := by
  rw [downloadPDF]
  rw [if_pos h]

/-- Witness for the C4 theorem with the target file present. -/
theorem existing_file_skips_download_witness :
    fileExists (targetPath l0 outputDirName)
        [(targetPath l0 outputDirName, str "x")] = true ∧
    downloadPDF env404 l0 outputDirName [(targetPath l0 outputDirName, str "x")]
      = ([(targetPath l0 outputDirName, str "x")], false) :=
  ⟨by decide,
   existing_file_skips_download env404 l0 outputDirName
     [(targetPath l0 outputDirName, str "x")] (by decide)⟩

/-- Claim C5: a response with success status whose declared content type
does not contain "application/pdf" produces no file — the file system is
returned unchanged. -/
theorem content_type_mismatch_no_file (env : DLEnv) (url dir : List Char)
    (fs : FS) (r : HttpResponse) (hh : env.http = .success r)
    (hs : r.status = 200) (hct : strContains r.contentType appPdf = false) :
    (downloadPDF env url dir fs).1 = fs := by
  rw [downloadPDF]
  split
  · rfl
  · rw [hh]
    simp [hs, hct]

/-- Witness for the C5 theorem with an HTML response. -/
theorem content_type_mismatch_no_file_witness :
    (envHtml.http = .success ⟨200, str "text/html", str "<html>"⟩ ∧
      (⟨200, str "text/html", str "<html>"⟩ : HttpResponse).status = 200 ∧
      strContains (⟨200, str "text/html", str "<html>"⟩ : HttpResponse).contentType
          appPdf = false) ∧
    (downloadPDF envHtml l0 outputDirName []).1 = [] :=
  ⟨⟨by decide, by decide, by decide⟩,
   content_type_mismatch_no_file envHtml l0 outputDirName []
     ⟨200, str "text/html", str "<html>"⟩ (by decide) (by decide) (by decide)⟩

/-- Counterexample to claim C3 as stated: with every check passing
except the final write (WriteTo fails), a file is nevertheless created
under the target name, so "file created iff all six checks pass"
fails. -/
theorem failed_write_leaves_file_counterexample :
    fileExists (targetPath l0 outputDirName)
      (downloadPDF envBadWrite l0 outputDirName []).1 = true ∧
    envBadWrite.writeOk = false := by decide

/-- Claim C3 (amended): a file exists under the target name after
downloadPDF exactly when it already existed or every check before the
final write passes (a failed WriteTo still leaves the file os.Create
made), and the per-link loop always processes the whole batch: one
event per link, regardless of per-link failures. -/
theorem downloadPDF_creates_iff_and_batch_total :
    (∀ (env : DLEnv) (url dir : List Char) (fs : FS),
        fileExists (targetPath url dir) (downloadPDF env url dir fs).1
          = (fileExists (targetPath url dir) fs || preChecks env)) ∧
    (∀ (rl : List Char) (envs : List Char → DLEnv) (dir : List Char)
        (st : LoopState) (links : List (List Char)),
        (runLinks rl envs dir st links).2.length = links.length) := by
  constructor
  · intro env url dir fs
    rw [downloadPDF]
    by_cases hex : fileExists (targetPath url dir) fs = true
    · rw [if_pos hex, hex, Bool.true_or]
    · rw [if_neg hex]
      have hex' : fileExists (targetPath url dir) fs = false :=
        Bool.eq_false_iff.mpr hex
      cases hh : env.http with
      | failure => simp [preChecks, hh, hex']
      | success r =>
        by_cases h2 : r.status = 200
        · by_cases h3 : strContains r.contentType appPdf = true
          · by_cases h4 : env.copyOk = true
            · by_cases h5 : r.body.isEmpty = true
              · simp [preChecks, hh, hex', h2, h3, h4, h5]
              · by_cases h6 : env.createOk = true
                · cases hw : env.writeOk
                  · simp [preChecks, hh, hex', h2, h3, h4,
                      Bool.eq_false_iff.mpr h5, h6, hw, fileExists]
                  · simp [preChecks, hh, hex', h2, h3, h4,
                      Bool.eq_false_iff.mpr h5, h6, hw, fileExists]
                · simp [preChecks, hh, hex', h2, h3, h4,
                    Bool.eq_false_iff.mpr h5, Bool.eq_false_iff.mpr h6]
            · simp [preChecks, hh, hex', h2, h3, Bool.eq_false_iff.mpr h4]
          · simp [preChecks, hh, hex', h2, Bool.eq_false_iff.mpr h3]
        · simp [preChecks, hh, hex', h2]
  · intro rl envs dir st links
    induction links generalizing st with
    | nil => rfl
    | cons l ls ih => simp [runLinks, ih]

theorem mem_rdAux (a : List Char) :
    ∀ (xs seen : List (List Char)), a ∈ rdAux seen xs ↔ (a ∈ xs ∧ a ∉ seen) := by
  intro xs
  induction xs with
  | nil => intro seen; simp [rdAux]
  | cons x xs ih =>
    intro seen
    rw [rdAux]
    by_cases hx : x ∈ seen
    · rw [if_pos hx, ih]
      constructor
      · rintro ⟨h1, h2⟩
        exact ⟨List.mem_cons_of_mem x h1, h2⟩
      · rintro ⟨h1, h2⟩
        rcases List.mem_cons.mp h1 with rfl | h3
        · exact absurd hx h2
        · exact ⟨h3, h2⟩
    · rw [if_neg hx]
      constructor
      · intro hm
        rcases List.mem_cons.mp hm with rfl | h3
        · exact ⟨List.mem_cons_self _ _, hx⟩
        · obtain ⟨h4, h5⟩ := (ih (x :: seen)).mp h3
          exact ⟨List.mem_cons_of_mem x h4,
            fun hs => h5 (List.mem_cons_of_mem x hs)⟩
      · rintro ⟨h1, h2⟩
        rcases List.mem_cons.mp h1 with rfl | h3
        · exact List.mem_cons_self _ _
        · by_cases hax : a = x
          · rw [hax]; exact List.mem_cons_self _ _
          · exact List.mem_cons_of_mem x ((ih (x :: seen)).mpr
              ⟨h3, fun hs => (List.mem_cons.mp hs).elim hax h2⟩)

theorem nodup_rdAux : ∀ (xs seen : List (List Char)), (rdAux seen xs).Nodup := by
  intro xs
  induction xs with
  | nil => intro seen; exact List.nodup_nil
  | cons x xs ih =>
    intro seen
    rw [rdAux]
    by_cases hx : x ∈ seen
    · rw [if_pos hx]; exact ih seen
    · rw [if_neg hx]
      refine List.nodup_cons.mpr ⟨?_, ih (x :: seen)⟩
      intro hm
      exact ((mem_rdAux x xs (x :: seen)).mp hm).2 (List.mem_cons_self _ _)

theorem rdAux_eq_self : ∀ (xs seen : List (List Char)), xs.Nodup →
    (∀ a ∈ xs, a ∉ seen) → rdAux seen xs = xs := by
  intro xs
  induction xs with
  | nil => intro seen _ _; rfl
  | cons x xs ih =>
    intro seen hn hs
    rw [rdAux, if_neg (hs x (List.mem_cons_self x xs))]
    congr 1
    apply ih
    · exact (List.nodup_cons.mp hn).2
    · intro a ha hmem
      rcases List.mem_cons.mp hmem with he | h3
      · exact (List.nodup_cons.mp hn).1 (he ▸ ha)
      · exact hs a (List.mem_cons_of_mem x ha) h3

theorem pairwise_rdAux : ∀ (xs seen : List (List Char)),
    (rdAux seen xs).Pairwise (fun a b => firstIdx a xs < firstIdx b xs) := by
  intro xs
  induction xs with
  | nil => intro seen; exact List.Pairwise.nil
  | cons x xs ih =>
    intro seen
    rw [rdAux]
    by_cases hx : x ∈ seen
    · rw [if_pos hx]
      refine List.Pairwise.imp_of_mem ?_ (ih seen)
      intro a b ha hb hab
      have hane : ¬ x = a := fun he => ((mem_rdAux a xs seen).mp ha).2 (he ▸ hx)
      have hbne : ¬ x = b := fun he => ((mem_rdAux b xs seen).mp hb).2 (he ▸ hx)
      rw [firstIdx, firstIdx, if_neg hane, if_neg hbne]
      exact Nat.succ_lt_succ hab
    · rw [if_neg hx]
      refine List.pairwise_cons.mpr ⟨?_, ?_⟩
      · intro b hb
        have hbmem := (mem_rdAux b xs (x :: seen)).mp hb
        have hbne : ¬ x = b :=
          fun he => hbmem.2 (he ▸ List.mem_cons_self x seen)
        rw [firstIdx, firstIdx, if_pos rfl, if_neg hbne]
        exact Nat.succ_pos _
      · refine List.Pairwise.imp_of_mem ?_ (ih (x :: seen))
        intro a b ha hb hab
        have hane : ¬ x = a :=
          fun he => ((mem_rdAux a xs (x :: seen)).mp ha).2
            (he ▸ List.mem_cons_self x seen)
        have hbne : ¬ x = b :=
          fun he => ((mem_rdAux b xs (x :: seen)).mp hb).2
            (he ▸ List.mem_cons_self x seen)
        rw [firstIdx, firstIdx, if_neg hane, if_neg hbne]
        exact Nat.succ_lt_succ hab

/-- Claim C8: removeDuplicatesFromSlice is idempotent and returns each
distinct input value exactly once, in order of first appearance: its
result has no duplicates, has exactly the input's values as elements,
and is ordered by first-occurrence index in the input. -/
theorem removeDuplicates_spec (S : List (List Char)) :
    removeDuplicatesFromSlice (removeDuplicatesFromSlice S)
        = removeDuplicatesFromSlice S ∧
    (removeDuplicatesFromSlice S).Nodup ∧
    (∀ x, x ∈ removeDuplicatesFromSlice S ↔ x ∈ S) ∧
    (removeDuplicatesFromSlice S).Pairwise
      (fun a b => firstIdx a S < firstIdx b S) := by
  refine ⟨?_, nodup_rdAux S [], ?_, pairwise_rdAux S []⟩
  · exact rdAux_eq_self (rdAux [] S) []
      (nodup_rdAux S []) (fun a _ h => (List.not_mem_nil a) h)
  · intro x
    rw [removeDuplicatesFromSlice, mem_rdAux]
    simp

theorem extract_foldl_eq (anchors : List Anchor) :
    ∀ acc : List (List Char),
      anchors.foldl
        (fun acc a =>
          match a.href with
          | some h => if hasSuffix (goToLower h) dotPdf then acc ++ [h] else acc
          | none => acc) acc
      = acc ++ anchors.filterMap
          (fun a => a.href.filter (fun h => hasSuffix (goToLower h) dotPdf)) := by
  induction anchors with
  | nil => intro acc; simp
  | cons a as ih =>
    intro acc
    rw [List.foldl_cons, List.filterMap_cons]
    cases ha : a.href with
    | none =>
      dsimp only [Option.filter]
      exact ih acc
    | some h =>
      dsimp only [Option.filter]
      by_cases hp : hasSuffix (goToLower h) dotPdf = true
      · rw [if_pos hp, if_pos hp, ih (acc ++ [h])]
        simp [Option.filter]
      · rw [if_neg hp, if_neg hp]
        exact ih acc

/-- Claim C9: over the anchors of a parsed document, the link extractor
returns exactly the present href values that end case-insensitively in
".pdf", in document order; on the spec's example markup it returns the
two PDF anchors, in order, and excludes the .txt one. -/
theorem extractPDFLinks_spec :
    (∀ anchors : List Anchor,
        extractPDFLinks anchors
          = anchors.filterMap
              (fun a => a.href.filter
                (fun h => hasSuffix (goToLower h) dotPdf))) ∧
    extractPDFLinks
        [⟨some (str "/x/report.PDF")⟩, ⟨some (str "https://other.test/y.pdf")⟩,
          ⟨some (str "/z.txt")⟩]
      = [str "/x/report.PDF", str "https://other.test/y.pdf"] := by
  constructor
  · intro anchors
    rw [extractPDFLinks, extract_foldl_eq anchors []]
    rfl
  · decide

/-- Claim C1 (code defect exhibited): a link already present in the
ledger still receives an HTTP GET when its target file is absent,
because main calls downloadPDF before consulting the ledger snapshot;
the ledger check only prevents re-recording, not the download. -/
theorem ledgerHit_still_issues_get :
    strContains (l0 ++ ['\n']) l0 = true ∧
    (runLinks (l0 ++ ['\n']) (fun _ => env404) outputDirName
        ⟨[], l0 ++ ['\n']⟩ [l0]).2 = [(l0, true)] := by decide

/-- Counterexample to claim C2 as stated: after a 404 download of a new
link the pipeline creates no file, yet it does append the link to the
ledger. -/
theorem notFound_link_recorded_counterexample :
    (runLinks [] (fun _ => env404) outputDirName ⟨[], []⟩ [l0]).1.fs = [] ∧
    strContains
      ((runLinks [] (fun _ => env404) outputDirName ⟨[], []⟩ [l0]).1.ledger)
      l0 = true := by decide

/-- Claim C2 (amended): a 404 response creates no file — the file system
is unchanged — but the pipeline still records the link in the ledger
when the link is new and syntactically valid. -/
theorem notFound_no_file_but_recorded (envs : List Char → DLEnv)
    (initL l dir : List Char) (fs0 : FS) (r : HttpResponse)
    (hh : (envs l).http = .success r) (hst : r.status = 404)
    (hdom : (extractDomainURL l).isEmpty = false)
    (hnew : strContains initL l = false) (hval : isUrlValid l = true) :
    (runLinks initL envs dir ⟨fs0, initL⟩ [l]).1.fs = fs0 ∧
    (runLinks initL envs dir ⟨fs0, initL⟩ [l]).1.ledger
      = initL ++ l ++ ['\n'] := by
  have hdl1 : (downloadPDF (envs l) l dir fs0).1 = fs0 := by
    rw [downloadPDF]
    split
    · rfl
    · rw [hh]
      simp [hst]
  refine ⟨?_, ?_⟩ <;>
    simp [runLinks, processLink, hdom, hdl1, hnew, hval]

/-- Witness for the C2 theorem at a concrete 404 link. -/
theorem notFound_no_file_but_recorded_witness :
    (((fun _ : List Char => env404) l0).http
        = .success ⟨404, str "text/html", []⟩ ∧
      (⟨404, str "text/html", []⟩ : HttpResponse).status = 404 ∧
      (extractDomainURL l0).isEmpty = false ∧
      strContains [] l0 = false ∧ isUrlValid l0 = true) ∧
    ((runLinks [] (fun _ => env404) outputDirName ⟨[], []⟩ [l0]).1.fs = [] ∧
      (runLinks [] (fun _ => env404) outputDirName ⟨[], []⟩ [l0]).1.ledger
        = [] ++ l0 ++ ['\n']) :=
  ⟨⟨by decide, by decide, by decide, by decide, by decide⟩,
   notFound_no_file_but_recorded (fun _ => env404) [] l0 outputDirName []
     ⟨404, str "text/html", []⟩ (by decide) (by decide) (by decide)
     (by decide) (by decide)⟩

/-- Claim C10: the ledger snapshot is read once before the loop, so a
link recorded during the run is invisible to the already-processed check
for later links of the same run — a duplicated new link is appended to
the ledger twice — and only the dedup step prevents re-processing
duplicates within one run. -/
theorem ledger_snapshot_not_refreshed (envs : List Char → DLEnv)
    (initL l dir : List Char) (fs0 : FS)
    (hdom : (extractDomainURL l).isEmpty = false)
    (hnew : strContains initL l = false) (hval : isUrlValid l = true) :
    (runLinks initL envs dir ⟨fs0, initL⟩ [l, l]).1.ledger
        = initL ++ l ++ ['\n'] ++ l ++ ['\n'] ∧
    removeDuplicatesFromSlice [l, l] = [l] := by
  constructor
  · simp [runLinks, processLink, hdom, hnew, hval]
  · simp [removeDuplicatesFromSlice, rdAux]

/-- Witness for the C10 theorem at a concrete duplicated link. -/
theorem ledger_snapshot_not_refreshed_witness :
    ((extractDomainURL l0).isEmpty = false ∧ strContains [] l0 = false ∧
      isUrlValid l0 = true) ∧
    ((runLinks [] (fun _ => env404) outputDirName ⟨[], []⟩ [l0, l0]).1.ledger
        = [] ++ l0 ++ ['\n'] ++ l0 ++ ['\n'] ∧
      removeDuplicatesFromSlice [l0, l0] = [l0]) :=
  ⟨⟨by decide, by decide, by decide⟩,
   ledger_snapshot_not_refreshed (fun _ => env404) [] l0 outputDirName []
     (by decide) (by decide) (by decide)⟩

end Duragloss
